import Mathlib

/-!
Verification development for the `codexi` single-user ledger engine
(`src/core/wallet/*.rs`, `src/core/helpers.rs`).

Shallow embedding conventions:
* `chrono::NaiveDate` is embedded as a `Date` structure (year/month/day)
  ordered lexicographically, which coincides with chronological order on
  calendar dates.  The invalid-date parse failures at the string boundary
  are embedded as `Option Date` arguments (`none` = the string did not
  parse); mutation entry points whose claims assume a valid date take a
  `Date` directly.
* `f64` amounts and balances are embedded as exact rationals `ℚ`.
* `anyhow::Error` values are embedded as the `CodexiError` enumeration of
  the distinct error construction sites, together with a `message`
  function holding the literal message text of each site.
* `&mut self -> Result<()>` mutation methods are embedded as functions
  returning `Codexi × Option CodexiError` (post-state, error); every
  early-return error path of the source leaves the state unchanged, and
  the embedding returns the input state on those paths accordingly.
* `Vec::sort_by` / `sort_by_key` (stable sorts) are embedded as a stable
  insertion sort `sortBy`.
-/

/-- Calendar date (embeds `chrono::NaiveDate`: `year() : i32`,
`month() : u32`, `day() : u32`). -/
structure Date where
  year : Int
  month : Nat
  day : Nat
deriving DecidableEq, Repr

/-- Chronological (lexicographic) order on dates, embedding the `Ord`
instance of `chrono::NaiveDate`. -/
def Date.leb (a b : Date) : Bool :=
  if a.year < b.year then true
  else if b.year < a.year then false
  else if a.month < b.month then true
  else if b.month < a.month then false
  else a.day ≤ b.day

/-- Strict chronological order on dates. -/
def Date.ltb (a b : Date) : Bool :=
  !Date.leb b a

theorem Date.leb_total (a b : Date) : Date.leb a b = true ∨ Date.leb b a = true := by
  unfold Date.leb
  split_ifs <;> simp_all <;> omega

theorem Date.leb_trans (a b c : Date) (h1 : Date.leb a b = true)
    (h2 : Date.leb b c = true) : Date.leb a c = true := by
  unfold Date.leb at *
  split_ifs at * <;> simp_all <;> omega

/-- Embeds `SystemKind` (`src/core/wallet/system_kind.rs`), declaration
order `Init < Adjust < Close`. -/
inductive SystemKind where
  | init
  | adjust
  | close
deriving DecidableEq, Repr

/-- Embeds `RegularKind` (`src/core/wallet/regular_kind.rs`), declaration
order `Transaction < Fee < Transfer < Refund`. -/
inductive RegularKind where
  | transaction
  | fee
  | transfer
  | refund
deriving DecidableEq, Repr

/-- Embeds `OperationKind` (`src/core/wallet/operation_kind.rs`),
declaration order `System _ < Regular _`. -/
inductive OperationKind where
  | system (k : SystemKind)
  | regular (k : RegularKind)
deriving DecidableEq, Repr

/-- Rank realising the derived `Ord` of `OperationKind` (declaration
order of constructors, then of the nested enumeration). -/
def OperationKind.rank : OperationKind → Nat
  | .system .init => 0
  | .system .adjust => 1
  | .system .close => 2
  | .regular .transaction => 3
  | .regular .fee => 4
  | .regular .transfer => 5
  | .regular .refund => 6

/-- Embeds `OperationKind::is_system`. -/
def OperationKind.isSystem : OperationKind → Bool
  | .system _ => true
  | .regular _ => false

/-- Embeds `OperationFlow` (`src/core/wallet/operation_flow.rs`). -/
inductive OperationFlow where
  | debit
  | credit
  | none
deriving DecidableEq, Repr

/-- Embeds `OperationFlow::from_sign`: `Credit` for positive, `Debit` for
negative, `None` for exactly zero. -/
def OperationFlow.fromSign (sign : ℚ) : OperationFlow :=
  if 0 < sign then OperationFlow.credit
  else if sign < 0 then OperationFlow.debit
  else OperationFlow.none

/-- Embeds `Operation` (`src/core/wallet/operation.rs`). -/
structure Operation where
  kind : OperationKind
  flow : OperationFlow
  date : Date
  amount : ℚ
  description : String
deriving DecidableEq, Repr

/-- Embeds `Operation::new` with the date already parsed (the source
fails only when the date string does not parse; claims that quantify over
valid dates use this total form).  The description is trimmed, and an
empty trimmed description is replaced by the fixed placeholder. -/
def Operation.new (kind : OperationKind) (flow : OperationFlow) (date : Date)
    (amount : ℚ) (desc : String) : Operation :=
  ⟨kind, flow, date, amount,
    if desc.trim = "" then "no description" else desc.trim⟩

/-- Error construction sites of the ledger engine (the source uses
`anyhow` string errors; each constructor is one distinct construction
site). -/
inductive CodexiError where
  | invalidDate
  | dateConflictClose
  | dateConflictAnchor
  | insufficientFunds
  | notEmpty
  | outOfBounds
  | protectedOperation
deriving DecidableEq, Repr

/-- Literal message text of each error construction site (format
arguments of the source messages are elided).  Note that the
insufficient-funds site (`codexi.rs` line 110) constructs its error with
the text of the system-anchor date-conflict message, verbatim from the
source. -/
def CodexiError.message : CodexiError → String
  | CodexiError.invalidDate => "Invalid Operation Date format"
  | CodexiError.dateConflictClose => "Date conflict with period closure."
  | CodexiError.dateConflictAnchor => "Date conflict with system anchor."
  | CodexiError.insufficientFunds => "Date conflict with system anchor."
  | CodexiError.notEmpty => "The codexi is not empty. Cannot set initial balance."
  | CodexiError.outOfBounds => "Operation index is out of bounds."
  | CodexiError.protectedOperation => "Operation cannot be deleted: it is a protected system entry."

/-- Insert `x` into `l`, walking past every element `y` with `le y x`
(so `x` lands after all elements less than or equal to it).  Folding
this over a list from the left realises a stable sort, matching Rust's
stable `sort_by` / `sort_by_key`. -/
def insertBy {α : Type} (le : α → α → Bool) (x : α) : List α → List α
  | [] => [x]
  | y :: ys => if le y x then y :: insertBy le x ys else x :: y :: ys

/-- Stable sort by the total preorder `le` (embeds `Vec::sort_by`). -/
def sortBy {α : Type} (le : α → α → Bool) (l : List α) : List α :=
  l.foldl (fun acc x => insertBy le x acc) []

theorem mem_insertBy {α : Type} (le : α → α → Bool) (x : α) (l : List α) (a : α) :
    a ∈ insertBy le x l ↔ a = x ∨ a ∈ l := by
  induction l with
  | nil => simp [insertBy]
  | cons y ys ih =>
    simp only [insertBy]
    split <;> simp [ih, List.mem_cons] <;> tauto

theorem pairwise_insertBy {α : Type} {le : α → α → Bool}
    (htot : ∀ a b, le a b = true ∨ le b a = true)
    (htr : ∀ a b c, le a b = true → le b c = true → le a c = true)
    (x : α) (l : List α) (h : l.Pairwise (fun a b => le a b = true)) :
    (insertBy le x l).Pairwise (fun a b => le a b = true) := by
  induction l with
  | nil => simp [insertBy]
  | cons y ys ih =>
    rcases h with _ | ⟨hy, hys⟩
    simp only [insertBy]
    split
    · refine List.Pairwise.cons ?_ (ih hys)
      intro z hz
      rcases (mem_insertBy le x ys z).1 hz with rfl | hzys
      · assumption
      · exact hy z hzys
    · have hxy : le x y = true := by
        rcases htot x y with h1 | h1
        · exact h1
        · simp_all
      refine List.Pairwise.cons ?_ (List.Pairwise.cons hy hys)
      intro z hz
      rcases List.mem_cons.1 hz with rfl | hzys
      · exact hxy
      · exact htr x y z hxy (hy z hzys)

theorem mem_foldl_insertBy {α : Type} (le : α → α → Bool) (l acc : List α) (a : α) :
    a ∈ l.foldl (fun acc x => insertBy le x acc) acc ↔ a ∈ acc ∨ a ∈ l := by
  induction l generalizing acc with
  | nil => simp
  | cons x xs ih =>
    simp only [List.foldl_cons, ih, mem_insertBy]
    simp
    tauto

theorem mem_sortBy {α : Type} (le : α → α → Bool) (l : List α) (a : α) :
    a ∈ sortBy le l ↔ a ∈ l := by
  unfold sortBy
  rw [mem_foldl_insertBy]
  simp

theorem pairwise_foldl_insertBy {α : Type} {le : α → α → Bool}
    (htot : ∀ a b, le a b = true ∨ le b a = true)
    (htr : ∀ a b c, le a b = true → le b c = true → le a c = true)
    (l : List α) (acc : List α) (h : acc.Pairwise (fun a b => le a b = true)) :
    (l.foldl (fun acc x => insertBy le x acc) acc).Pairwise (fun a b => le a b = true) := by
  induction l generalizing acc with
  | nil => simpa
  | cons x xs ih =>
    simp only [List.foldl_cons]
    exact ih _ (pairwise_insertBy htot htr x acc h)

theorem pairwise_sortBy {α : Type} {le : α → α → Bool}
    (htot : ∀ a b, le a b = true ∨ le b a = true)
    (htr : ∀ a b c, le a b = true → le b c = true → le a c = true)
    (l : List α) :
    (sortBy le l).Pairwise (fun a b => le a b = true) :=
  pairwise_foldl_insertBy htot htr l [] (List.Pairwise.nil)

/-- Embeds `round_to_2_dec`'s inner `f64::round` (nearest integer, ties
away from zero) on exact rationals. -/
def rustRound (q : ℚ) : Int :=
  if 0 ≤ q then ⌊q + 1/2⌋ else -⌊-q + 1/2⌋

/-- Embeds `round_to_2_dec` (`src/core/helpers.rs`): scale by 100, round,
scale back. -/
def round2 (q : ℚ) : ℚ :=
  (rustRound (q * 100) : ℚ) / 100

/-- Embeds `BalanceResult` (`src/core/wallet/codexi.rs`). -/
structure BalanceResult where
  credit : ℚ
  debit : ℚ
  total : ℚ
deriving DecidableEq, Repr

/-- Embeds the `Codexi` ledger: an ordered sequence of operations. -/
structure Codexi where
  operations : List Operation
deriving DecidableEq, Repr

/-- Comparator of `add_operation`'s `sort_by_key(|o| o.date)`. -/
def opDateLe (a b : Operation) : Bool :=
  Date.leb a.date b.date

/-- Comparator of `close_period`'s final sort: primary key date
ascending, secondary key the declared kind order. -/
def opDateKindLe (a b : Operation) : Bool :=
  if a.date = b.date then a.kind.rank ≤ b.kind.rank else Date.leb a.date b.date

/-- Conjunction of the five `continue`-guard filters of the `balance`
loop, with every date filter already resolved (`none` = filter absent). -/
def matchesFilters (sd ed fd : Option Date) (fm : Option (Int × Nat))
    (fy : Option Int) (op : Operation) : Bool :=
  (match sd with
   | some s => !Date.ltb op.date s
   | Option.none => true) &&
  (match ed with
   | some e => !Date.ltb e op.date
   | Option.none => true) &&
  (match fd with
   | some d => decide (op.date = d)
   | Option.none => true) &&
  (match fm with
   | some ym => decide (op.date.year = ym.1) && decide (op.date.month = ym.2)
   | Option.none => true) &&
  (match fy with
   | some y => decide (op.date.year = y)
   | Option.none => true)

/-- The accumulation loop of `balance`: for each operation passing the
filters, add the amount to credit or debit according to the flow and set
`total := credit - debit` (the source assigns `total` inside the loop). -/
def balLoop (flt : Operation → Bool) : List Operation → ℚ → ℚ → ℚ → ℚ × ℚ × ℚ
  | [], credit, debit, total => (credit, debit, total)
  | op :: rest, credit, debit, total =>
    if flt op then
      let credit' := if op.flow = OperationFlow.credit then credit + op.amount else credit
      let debit' := if op.flow = OperationFlow.debit then debit + op.amount else debit
      balLoop flt rest credit' debit' (credit' - debit')
    else
      balLoop flt rest credit debit total

/-- Embeds `Codexi::balance`.  Arguments model the textual filters after
the parse boundary: `none` = argument absent, `some none` = argument
present but unparsable, `some (some v)` = argument parsed to `v`.
Unparsable `from`/`to` is a hard error; unparsable `day` or `year`
returns the source's literal early-out result `{credit: 0.0, debit: 0.9,
total: 0.0}` (`codexi.rs` lines 384 and 409, `debit: 0.9` verbatim);
unparsable `month` silently drops the month filter. -/
def Codexi.balance (c : Codexi) (f t dy : Option (Option Date))
    (mo : Option (Option (Int × Nat))) (yr : Option (Option Int)) :
    Except CodexiError BalanceResult :=
  if f = some Option.none then Except.error CodexiError.invalidDate
  else if t = some Option.none then Except.error CodexiError.invalidDate
  else if dy = some Option.none then Except.ok ⟨0, 9/10, 0⟩
  else if yr = some Option.none then Except.ok ⟨0, 9/10, 0⟩
  else
    let flt := matchesFilters f.join t.join dy.join mo.join yr.join
    let r := balLoop flt c.operations 0 0 0
    Except.ok ⟨round2 r.1, round2 r.2.1, round2 r.2.2⟩

/-- Maximum of a list of dates (embeds `Iterator::max` over the mapped
dates: `none` when the iterator is empty). -/
def maxDateList (l : List Date) : Option Date :=
  l.foldl (fun acc d =>
    match acc with
    | Option.none => some d
    | some m => some (if Date.leb m d then d else m)) Option.none

/-- `add_operation`'s `latest_close_date`: maximum date among
`System(Close)` operations. -/
def Codexi.latestCloseDate (c : Codexi) : Option Date :=
  maxDateList ((c.operations.filter
    (fun op => decide (op.kind = OperationKind.system SystemKind.close))).map
    (fun op => op.date))

/-- `add_operation`'s `latest_non_strict_date`: maximum date among
`System(Init)` and `System(Adjust)` operations. -/
def Codexi.latestAnchorDate (c : Codexi) : Option Date :=
  maxDateList ((c.operations.filter
    (fun op => decide (op.kind = OperationKind.system SystemKind.init)
      || decide (op.kind = OperationKind.system SystemKind.adjust))).map
    (fun op => op.date))

/-- The close-anchor rejection condition of `add_operation`: some close
anchor exists and the new date is on or before it. -/
def closeConflictB (c : Codexi) (d : Date) : Bool :=
  match Codexi.latestCloseDate c with
  | some m => Date.leb d m
  | Option.none => false

/-- The init/adjust-anchor rejection condition of `add_operation`: some
anchor exists and the new date is strictly before it. -/
def anchorConflictB (c : Codexi) (d : Date) : Bool :=
  match Codexi.latestAnchorDate c with
  | some m => Date.ltb d m
  | Option.none => false

/-- Embeds `Codexi::add_operation` (`codexi.rs` lines 61-119), with the
date already parsed.  Checks the close conflict, then the anchor
conflict, then (for `Debit`) the unfiltered total balance; on success
pushes the new operation and stably re-sorts by date. -/
def Codexi.addOperation (c : Codexi) (kind : OperationKind) (flow : OperationFlow)
    (date : Date) (amount : ℚ) (desc : String) : Codexi × Option CodexiError :=
  if closeConflictB c date then (c, some CodexiError.dateConflictClose)
  else if anchorConflictB c date then (c, some CodexiError.dateConflictAnchor)
  else if flow = OperationFlow.debit then
    match Codexi.balance c Option.none Option.none Option.none Option.none Option.none with
    | Except.error e => (c, some e)
    | Except.ok br =>
      if br.total < amount then (c, some CodexiError.insufficientFunds)
      else (⟨sortBy opDateLe (c.operations ++ [Operation.new kind flow date amount desc])⟩,
        Option.none)
  else (⟨sortBy opDateLe (c.operations ++ [Operation.new kind flow date amount desc])⟩,
    Option.none)

/-- Embeds `Codexi::delete_operation` (`codexi.rs` lines 125-149):
bounds check first, then the protection check listing all three
`System` kinds, then plain removal at the index. -/
def Codexi.deleteOperation (c : Codexi) (i : Nat) : Codexi × Option CodexiError :=
  if h : c.operations.length ≤ i then (c, some CodexiError.outOfBounds)
  else
    let k := (c.operations.get ⟨i, Nat.lt_of_not_le h⟩).kind
    if k = OperationKind.system SystemKind.init
        ∨ k = OperationKind.system SystemKind.close
        ∨ k = OperationKind.system SystemKind.adjust then
      (c, some CodexiError.protectedOperation)
    else
      (⟨c.operations.eraseIdx i⟩, Option.none)

/-- Embeds `Codexi::initialize` (`codexi.rs` lines 155-179; Lean name
avoids the source spelling): reject when non-empty, otherwise delegate
to `add_operation` with kind `System(Init)`, flow from the sign of the
amount, and the absolute amount. -/
def Codexi.initLedger (c : Codexi) (amount : ℚ) (d : Date) : Codexi × Option CodexiError :=
  if !c.operations.isEmpty then (c, some CodexiError.notEmpty)
  else Codexi.addOperation c (OperationKind.system SystemKind.init)
    (OperationFlow.fromSign amount) d (abs amount) "INITIAL AMOUNT"

/-- Description of an adjustment operation (numeric rendering of the
source's `format!` is abstracted by `toString` on the exact rational). -/
def mkAdjustDescription (amt phys : ℚ) : String :=
  "ADJUSTMENT: Deviation of " ++ toString amt ++ " to reach physical balance " ++ toString phys

/-- Embeds `Codexi::adjust_balance` (`codexi.rs` lines 185-227). -/
def Codexi.adjustBalance (c : Codexi) (physicalBalance : ℚ) (d : Date) :
    Codexi × Option CodexiError :=
  if physicalBalance < 0 then (c, Option.none)
  else
    match Codexi.balance c Option.none Option.none Option.none Option.none Option.none with
    | Except.error e => (c, some e)
    | Except.ok br =>
      let difference := physicalBalance - br.total
      if abs difference < 1/1000 then (c, Option.none)
      else Codexi.addOperation c (OperationKind.system SystemKind.adjust)
        (OperationFlow.fromSign difference) d (abs difference)
        (mkAdjustDescription (abs difference) physicalBalance)

/-- One step of `close_period`'s accumulator (`codexi.rs` lines
252-274): `Init`/`Close` entries reset the accumulator to their signed
amount (a `None` flow leaves it untouched, as in the source);
`Adjust`/`Regular` entries add or subtract their amount by flow. -/
def stepClose (bal : ℚ) (op : Operation) : ℚ :=
  match op.kind with
  | OperationKind.system SystemKind.init
  | OperationKind.system SystemKind.close =>
    match op.flow with
    | OperationFlow.credit => op.amount
    | OperationFlow.debit => -op.amount
    | OperationFlow.none => bal
  | OperationKind.system SystemKind.adjust
  | OperationKind.regular RegularKind.transaction
  | OperationKind.regular RegularKind.fee
  | OperationKind.regular RegularKind.transfer
  | OperationKind.regular RegularKind.refund =>
    match op.flow with
    | OperationFlow.credit => bal + op.amount
    | OperationFlow.debit => bal - op.amount
    | OperationFlow.none => bal

/-- The partition-and-accumulate loop of `close_period`: returns the
closing balance, the archived operations (date on or before the close
date, in order) and the retained operations (in order). -/
def closeScan (d : Date) : List Operation → ℚ → ℚ × List Operation × List Operation
  | [], bal => (bal, [], [])
  | op :: rest, bal =>
    if Date.leb op.date d then
      let r := closeScan d rest (stepClose bal op)
      (r.1, op :: r.2.1, r.2.2)
    else
      let r := closeScan d rest bal
      (r.1, r.2.1, op :: r.2.2)

/-- Embeds the `matches!(op.kind, System(Init) | System(Close))` test of
`close_period`'s no-op guard. -/
def OperationKind.isInitOrClose : OperationKind → Bool
  | OperationKind.system SystemKind.init => true
  | OperationKind.system SystemKind.close => true
  | _ => false

/-- Description of the carried-forward close anchor (numeric rendering
of the source's `format!` is abstracted by `toString` on the exact
rational). -/
def mkCloseDescription (amt : ℚ) (parts : List String) : String :=
  "SOLDE REPORTE : " ++ toString amt ++ " " ++ String.intercalate " " parts

/-- The new `System(Close)` anchor constructed by `close_period`
(`codexi.rs` lines 303-316): flow from the sign of the closing balance,
amount its absolute value, dated at the close date. -/
def mkCloseOp (d : Date) (bal : ℚ) (parts : List String) : Operation :=
  Operation.new (OperationKind.system SystemKind.close) (OperationFlow.fromSign bal) d
    (abs bal) (mkCloseDescription (abs bal) parts)

/-- Result of `close_period`: the post-state ledger and the archive
write effect (`none` when no archive file is written; the file system
collaborator itself is external). -/
structure CloseOutcome where
  post : Codexi
  archiveWrite : Option (List Operation)
deriving DecidableEq, Repr

/-- Embeds `Codexi::close_period` (`codexi.rs` lines 234-337) with the
close date already parsed: partition and accumulate, no-op guard
(archived empty and no `Init`/`Close` among the retained operations),
archive write when archived is non-empty, new close anchor, and the
final stable sort by date then kind. -/
def Codexi.closePeriod (c : Codexi) (d : Date) (parts : List String) : CloseOutcome :=
  let r := closeScan d c.operations 0
  let bal := r.1
  let archived := r.2.1
  let retained := r.2.2
  if archived.isEmpty && retained.all (fun op => !OperationKind.isInitOrClose op.kind) then
    ⟨⟨retained⟩, Option.none⟩
  else
    let write := if archived.isEmpty then Option.none else some archived
    ⟨⟨sortBy opDateKindLe (retained ++ [mkCloseOp d bal parts])⟩, write⟩

/-- Decidable equality for `Except` results, used to evaluate the
embedding on concrete inputs. -/
instance {ε α : Type} [DecidableEq ε] [DecidableEq α] : DecidableEq (Except ε α)
  | Except.error x, Except.error y =>
    if h : x = y then Decidable.isTrue (by rw [h])
    else Decidable.isFalse (fun hc => h (Except.error.inj hc))
  | Except.error _, Except.ok _ => Decidable.isFalse (fun hc => Except.noConfusion hc)
  | Except.ok _, Except.error _ => Decidable.isFalse (fun hc => Except.noConfusion hc)
  | Except.ok x, Except.ok y =>
    if h : x = y then Decidable.isTrue (by rw [h])
    else Decidable.isFalse (fun hc => h (Except.ok.inj hc))

/-- The archived partition described by the close algorithm: operations
dated on or before the close date, in stored order. -/
def archivedOf (c : Codexi) (d : Date) : List Operation :=
  c.operations.filter (fun op => Date.leb op.date d)

/-- The retained partition: operations dated strictly after the close
date, in stored order. -/
def retainedOf (c : Codexi) (d : Date) : List Operation :=
  c.operations.filter (fun op => !Date.leb op.date d)

/-- The closing balance as a direct fold of the accumulator step over
the archived partition. -/
def closingBalanceOf (c : Codexi) (d : Date) : ℚ :=
  (archivedOf c d).foldl stepClose 0

/-- Equivalence of `close_period`'s single partition-and-accumulate loop
with the filter/fold description: the balance is the fold of the step
function over the archived prefix, and the two output lists are the two
filters of the input. -/
theorem closeScan_eq (d : Date) (l : List Operation) (b : ℚ) :
    closeScan d l b =
      ((l.filter (fun op => Date.leb op.date d)).foldl stepClose b,
        l.filter (fun op => Date.leb op.date d),
        l.filter (fun op => !Date.leb op.date d)) := by
  induction l generalizing b with
  | nil => simp [closeScan]
  | cons op rest ih =>
    by_cases h : Date.leb op.date d
    · simp [closeScan, h, ih]
    · simp [closeScan, h, ih]

/-- Sum of the amounts of the operations passing the filters whose flow
is `Credit` (the specification's unrounded credit accumulation). -/
def creditRawL (flt : Operation → Bool) : List Operation → ℚ
  | [] => 0
  | op :: rest =>
    (if flt op && decide (op.flow = OperationFlow.credit) then op.amount else 0)
      + creditRawL flt rest

/-- Sum of the amounts of the operations passing the filters whose flow
is `Debit` (the specification's unrounded debit accumulation). -/
def debitRawL (flt : Operation → Bool) : List Operation → ℚ
  | [] => 0
  | op :: rest =>
    (if flt op && decide (op.flow = OperationFlow.debit) then op.amount else 0)
      + debitRawL flt rest

/-- The balance loop computes the two flow-wise sums over the filtered
operations, and its running `total` slot ends at credit minus debit
whenever it starts at the initial credit minus the initial debit. -/
theorem balLoop_spec (flt : Operation → Bool) (l : List Operation) (c0 d0 : ℚ) :
    balLoop flt l c0 d0 (c0 - d0)
      = (c0 + creditRawL flt l, d0 + debitRawL flt l,
         (c0 + creditRawL flt l) - (d0 + debitRawL flt l)) := by
  induction l generalizing c0 d0 with
  | nil => simp [balLoop, creditRawL, debitRawL]
  | cons op rest ih =>
    simp only [balLoop, creditRawL, debitRawL]
    by_cases hf : flt op
    · rcases hflow : op.flow
      · simp only [hf, hflow, Bool.true_and, decide_eq_true_eq, reduceCtorEq,
          if_true, if_false]
        have := ih c0 (d0 + op.amount)
        simp only [this, Prod.mk.injEq]
        refine ⟨by ring, by ring, by ring⟩
      · simp only [hf, hflow, Bool.true_and, decide_eq_true_eq, reduceCtorEq,
          if_true, if_false]
        have := ih (c0 + op.amount) d0
        simp only [this, Prod.mk.injEq]
        refine ⟨by ring, by ring, by ring⟩
      · simp only [hf, hflow, Bool.true_and, decide_eq_true_eq, reduceCtorEq,
          if_false]
        rw [ih c0 d0]
        simp
    · simp only [hf, Bool.false_and, if_false]
      rw [ih c0 d0]
      simp

/-- The balance loop specialised to the source's actual initial state. -/
theorem balLoop_spec0 (flt : Operation → Bool) (l : List Operation) :
    balLoop flt l 0 0 0
      = (creditRawL flt l, debitRawL flt l, creditRawL flt l - debitRawL flt l) := by
  have := balLoop_spec flt l 0 0
  simpa using this

/-- `balance` on any call that reaches the accumulation loop (no
unparsable `from`/`to`/`day`/`year` argument) returns the rounded
flow-wise sums over the filtered operations. -/
theorem balance_ok (c : Codexi) (f t dy : Option (Option Date))
    (mo : Option (Option (Int × Nat))) (yr : Option (Option Int))
    (hf : f ≠ some Option.none) (ht : t ≠ some Option.none)
    (hdy : dy ≠ some Option.none) (hyr : yr ≠ some Option.none) :
    Codexi.balance c f t dy mo yr
      = Except.ok
          ⟨round2 (creditRawL (matchesFilters f.join t.join dy.join mo.join yr.join) c.operations),
           round2 (debitRawL (matchesFilters f.join t.join dy.join mo.join yr.join) c.operations),
           round2 (creditRawL (matchesFilters f.join t.join dy.join mo.join yr.join) c.operations
             - debitRawL (matchesFilters f.join t.join dy.join mo.join yr.join) c.operations)⟩ := by
  unfold Codexi.balance
  rw [if_neg hf, if_neg ht, if_neg hdy, if_neg hyr]
  simp only [balLoop_spec0]

/-- True exactly on the two date-conflict rejection values of
`add_operation`. -/
def isDateConflictErr : Option CodexiError → Bool
  | some CodexiError.dateConflictClose => true
  | some CodexiError.dateConflictAnchor => true
  | _ => false

/-- The date-conflict condition stated by the specification: the new
date is on or before the most recent close anchor, or strictly before
the most recent init/adjust anchor. -/
def dateConflictCond (c : Codexi) (d : Date) : Prop :=
  (∃ m, Codexi.latestCloseDate c = some m ∧ Date.leb d m = true) ∨
  (∃ m, Codexi.latestAnchorDate c = some m ∧ Date.ltb d m = true)

/-- The ledger's operations are sorted by date ascending. -/
def sortedByDate (c : Codexi) : Prop :=
  c.operations.Pairwise (fun a b => Date.leb a.date b.date = true)

/-- Every stored amount is non-negative. -/
def allAmountsNonneg (c : Codexi) : Prop :=
  ∀ op ∈ c.operations, 0 ≤ op.amount

/-- Claim C7: `delete` rejects with `OutOfBounds` when the index is past
the end; rejects with `ProtectedOperation` when the operation at the
index has any `System` kind, leaving the ledger unchanged in both
failure cases; otherwise removes exactly the element at the index,
shifting every later element down by one. -/
theorem claimC7 (c : Codexi) (i : Nat) :
    (c.operations.length ≤ i →
      Codexi.deleteOperation c i = (c, some CodexiError.outOfBounds))
    ∧ (∀ h : i < c.operations.length,
        (OperationKind.isSystem (c.operations.get ⟨i, h⟩).kind = true →
          Codexi.deleteOperation c i = (c, some CodexiError.protectedOperation))
        ∧ (OperationKind.isSystem (c.operations.get ⟨i, h⟩).kind = false →
          Codexi.deleteOperation c i
            = (⟨c.operations.take i ++ c.operations.drop (i + 1)⟩, Option.none))) := by
  constructor
  · intro hle
    unfold Codexi.deleteOperation
    rw [dif_pos hle]
  · intro h
    have hnle : ¬ c.operations.length ≤ i := by omega
    constructor
    · intro hsys
      unfold Codexi.deleteOperation
      rw [dif_neg hnle]
      have hcond : (c.operations.get ⟨i, Nat.lt_of_not_le hnle⟩).kind
            = OperationKind.system SystemKind.init
          ∨ (c.operations.get ⟨i, Nat.lt_of_not_le hnle⟩).kind
            = OperationKind.system SystemKind.close
          ∨ (c.operations.get ⟨i, Nat.lt_of_not_le hnle⟩).kind
            = OperationKind.system SystemKind.adjust := by
        rcases hk : (c.operations.get ⟨i, h⟩).kind with s | r
        · rcases s
          · exact Or.inl rfl
          · exact Or.inr (Or.inr rfl)
          · exact Or.inr (Or.inl rfl)
        · rw [hk] at hsys
          simp [OperationKind.isSystem] at hsys
      rw [if_pos hcond]
    · intro hreg
      unfold Codexi.deleteOperation
      rw [dif_neg hnle]
      have hcond : ¬ ((c.operations.get ⟨i, Nat.lt_of_not_le hnle⟩).kind
            = OperationKind.system SystemKind.init
          ∨ (c.operations.get ⟨i, Nat.lt_of_not_le hnle⟩).kind
            = OperationKind.system SystemKind.close
          ∨ (c.operations.get ⟨i, Nat.lt_of_not_le hnle⟩).kind
            = OperationKind.system SystemKind.adjust) := by
        intro hcontra
        rcases hcontra with hk | hk | hk <;>
          (rw [hk] at hreg; simp [OperationKind.isSystem] at hreg)
      rw [if_neg hcond, List.eraseIdx_eq_take_drop_succ]

/-- Witness for C7 on a concrete two-element ledger: deleting the
protected system entry at index 0 fails with `ProtectedOperation`, and
deleting the regular entry at index 1 removes exactly it. -/
theorem claimC7_witness :
    Codexi.deleteOperation
        ⟨[⟨OperationKind.system SystemKind.init, OperationFlow.credit, ⟨2024, 1, 1⟩, 100, "INITIAL AMOUNT"⟩,
          ⟨OperationKind.regular RegularKind.transaction, OperationFlow.credit, ⟨2024, 1, 5⟩, 50, "atm"⟩]⟩ 0
      = (⟨[⟨OperationKind.system SystemKind.init, OperationFlow.credit, ⟨2024, 1, 1⟩, 100, "INITIAL AMOUNT"⟩,
           ⟨OperationKind.regular RegularKind.transaction, OperationFlow.credit, ⟨2024, 1, 5⟩, 50, "atm"⟩]⟩,
         some CodexiError.protectedOperation) :=
  ((claimC7 ⟨[⟨OperationKind.system SystemKind.init, OperationFlow.credit, ⟨2024, 1, 1⟩, 100, "INITIAL AMOUNT"⟩,
    ⟨OperationKind.regular RegularKind.transaction, OperationFlow.credit, ⟨2024, 1, 5⟩, 50, "atm"⟩]⟩ 0).2
    (by decide)).1 (by decide)

/-- Claim C10: on an empty ledger, `initialize` with a strictly negative
amount fails (the derived flow is `Debit`, and the absolute amount
exceeds the zero balance, so the insufficient-funds branch fires), and
the ledger stays empty. -/
theorem claimC10 (a : ℚ) (d : Date) (h : a < 0) :
    Codexi.initLedger ⟨[]⟩ a d = (⟨[]⟩, some CodexiError.insufficientFunds) := by
  have hflow : OperationFlow.fromSign a = OperationFlow.debit := by
    unfold OperationFlow.fromSign
    rw [if_neg (by linarith), if_pos h]
  have habs : (0 : ℚ) < abs a := abs_pos.mpr (ne_of_lt h)
  unfold Codexi.initLedger
  simp only [List.isEmpty_nil, Bool.not_true, Bool.false_eq_true, if_false]
  unfold Codexi.addOperation
  rw [hflow]
  have hclose : closeConflictB ⟨[]⟩ d = false := rfl
  have hanchor : anchorConflictB ⟨[]⟩ d = false := rfl
  rw [hclose, hanchor]
  simp only [Bool.false_eq_true, if_false, if_pos rfl]
  have hbal : Codexi.balance ⟨[]⟩ Option.none Option.none Option.none Option.none Option.none
      = Except.ok ⟨0, 0, 0⟩ := by
    rw [balance_ok _ _ _ _ _ _ (by simp) (by simp) (by simp) (by simp)]
    norm_num [creditRawL, debitRawL, round2, rustRound]
  rw [hbal]
  simp only [habs, if_pos]

/-- Witness for C10 at the concrete amount -5 and date 2024-01-02. -/
theorem claimC10_witness :
    (-5 : ℚ) < 0 ∧
      Codexi.initLedger ⟨[]⟩ (-5) ⟨2024, 1, 2⟩ = (⟨[]⟩, some CodexiError.insufficientFunds) :=
  ⟨by norm_num, claimC10 (-5) ⟨2024, 1, 2⟩ (by norm_num)⟩

/-- Claim C3 (code-bug evidence): on the empty ledger a `Debit` append
of 5 exceeds the zero balance, so the insufficient-funds branch rejects
it and leaves the ledger unchanged — but the error constructed on that
branch carries the verbatim message of the system-anchor date conflict
(`codexi.rs` line 110), not an insufficient-funds message. -/
theorem claimC3bug :
    Codexi.addOperation ⟨[]⟩ (OperationKind.regular RegularKind.transaction)
        OperationFlow.debit ⟨2024, 1, 2⟩ 5 "x"
      = (⟨[]⟩, some CodexiError.insufficientFunds)
    ∧ CodexiError.message CodexiError.insufficientFunds
      = CodexiError.message CodexiError.dateConflictAnchor := by
  constructor
  · unfold Codexi.addOperation
    have h1 : closeConflictB ⟨[]⟩ ⟨2024, 1, 2⟩ = false := rfl
    have h2 : anchorConflictB ⟨[]⟩ ⟨2024, 1, 2⟩ = false := rfl
    rw [h1, h2]
    rw [balance_ok _ _ _ _ _ _ (by simp) (by simp) (by simp) (by simp)]
    norm_num [creditRawL, debitRawL, round2, rustRound]
  · rfl

/-- Claim C4 (code-bug evidence): with an unparsable `day` argument, and
likewise with an unparsable `year` argument, `balance` returns a
successful result whose debit field is 0.9 — not the all-zero sentinel
the specification describes (`codexi.rs` lines 384 and 409 write
`debit: 0.9`). -/
theorem claimC4bug :
    Codexi.balance
        ⟨[⟨OperationKind.regular RegularKind.transaction, OperationFlow.credit, ⟨2025, 3, 4⟩, 7, "atm"⟩]⟩
        Option.none Option.none (some Option.none) Option.none Option.none
      = Except.ok ⟨0, 9/10, 0⟩
    ∧ Codexi.balance
        ⟨[⟨OperationKind.regular RegularKind.transaction, OperationFlow.credit, ⟨2025, 3, 4⟩, 7, "atm"⟩]⟩
        Option.none Option.none Option.none Option.none (some Option.none)
      = Except.ok ⟨0, 9/10, 0⟩
    ∧ (9/10 : ℚ) ≠ 0 := by
  refine ⟨?_, ?_, by norm_num⟩
  · unfold Codexi.balance
    simp
  · unfold Codexi.balance
    simp

/-- Claim C5 (counterexample): on a ledger holding a single `Init`
anchor dated 2024-01-10, closing at 2024-01-05 archives nothing, yet the
call is not a no-op — a `System(Close)` operation dated 2024-01-05 is
inserted in front of the anchor. -/
theorem claimC5counter :
    ((Codexi.closePeriod
        ⟨[⟨OperationKind.system SystemKind.init, OperationFlow.credit, ⟨2024, 1, 10⟩, 100, "x"⟩]⟩
        ⟨2024, 1, 5⟩ []).post.operations.map (fun op => (op.date, op.kind)))
      = [(⟨2024, 1, 5⟩, OperationKind.system SystemKind.close),
         (⟨2024, 1, 10⟩, OperationKind.system SystemKind.init)] := by
  decide

/-- Claim C8 (counterexample): `add_operation` performs no sign check on
the amount, so a successful `Credit` append with amount -5 stores a
strictly negative amount. -/
theorem claimC8counter :
    (Codexi.addOperation ⟨[]⟩ (OperationKind.regular RegularKind.transaction)
        OperationFlow.credit ⟨2024, 1, 2⟩ (-5) "x").2 = Option.none
    ∧ ((Codexi.addOperation ⟨[]⟩ (OperationKind.regular RegularKind.transaction)
        OperationFlow.credit ⟨2024, 1, 2⟩ (-5) "x").1.operations.map (fun op => op.amount))
      = [-5]
    ∧ ((-5 : ℚ) < 0) := by
  refine ⟨by decide, by decide, by norm_num⟩

/-- Claim C9 (counterexample): with stored amounts 0.004 (credit) and
0.005 (debit), the unfiltered `balance` returns credit 0, debit 0.01 and
total 0 after per-field rounding, so the returned fields violate
`credit - debit = total`. -/
theorem claimC9counter :
    Codexi.balance
        ⟨[⟨OperationKind.regular RegularKind.transaction, OperationFlow.credit, ⟨2025, 1, 1⟩, 1/250, "a"⟩,
          ⟨OperationKind.regular RegularKind.transaction, OperationFlow.debit, ⟨2025, 1, 2⟩, 1/200, "b"⟩]⟩
        Option.none Option.none Option.none Option.none Option.none
      = Except.ok ⟨0, 1/100, 0⟩
    ∧ ((0 : ℚ) - 1/100 ≠ 0) := by
  constructor
  · rw [balance_ok _ _ _ _ _ _ (by simp) (by simp) (by simp) (by simp)]
    simp only [creditRawL, debitRawL, matchesFilters, Option.join, reduceCtorEq,
      decide_eq_true_eq, Bool.true_and, Bool.and_true, if_true, if_false,
      add_zero, zero_add]
    norm_num [round2, rustRound]
  · norm_num

/-- The boolean close-conflict test holds exactly when some latest close
date exists and the new date is on or before it. -/
theorem closeConflictB_iff (c : Codexi) (d : Date) :
    closeConflictB c d = true
      ↔ ∃ m, Codexi.latestCloseDate c = some m ∧ Date.leb d m = true := by
  unfold closeConflictB
  cases h : Codexi.latestCloseDate c with
  | none => simp
  | some m => simp

/-- The boolean anchor-conflict test holds exactly when some latest
init/adjust anchor date exists and the new date is strictly before it. -/
theorem anchorConflictB_iff (c : Codexi) (d : Date) :
    anchorConflictB c d = true
      ↔ ∃ m, Codexi.latestAnchorDate c = some m ∧ Date.ltb d m = true := by
  unfold anchorConflictB
  cases h : Codexi.latestAnchorDate c with
  | none => simp
  | some m => simp

/-- The full-ledger filter of the unfiltered `balance` call used by the
debit check of `add_operation` and by `adjust_balance`. -/
def allOpsFilter : Operation → Bool :=
  matchesFilters Option.none Option.none Option.none Option.none Option.none

/-- The unfiltered `balance` call always succeeds and returns the
rounded flow-wise sums over all operations. -/
theorem balance_nofilter (c : Codexi) :
    Codexi.balance c Option.none Option.none Option.none Option.none Option.none
      = Except.ok ⟨round2 (creditRawL allOpsFilter c.operations),
          round2 (debitRawL allOpsFilter c.operations),
          round2 (creditRawL allOpsFilter c.operations - debitRawL allOpsFilter c.operations)⟩ := by
  rw [balance_ok c _ _ _ _ _ (by simp) (by simp) (by simp) (by simp)]
  rfl

/-- Closed-form characterisation of `add_operation`: close conflict,
then anchor conflict, then the insufficient-funds check against the
rounded unfiltered total, then push-and-sort. -/
theorem addOperation_eq (c : Codexi) (k : OperationKind) (fl : OperationFlow)
    (d : Date) (a : ℚ) (s : String) :
    Codexi.addOperation c k fl d a s =
      if closeConflictB c d then (c, some CodexiError.dateConflictClose)
      else if anchorConflictB c d then (c, some CodexiError.dateConflictAnchor)
      else if fl = OperationFlow.debit
          ∧ round2 (creditRawL allOpsFilter c.operations - debitRawL allOpsFilter c.operations) < a
        then (c, some CodexiError.insufficientFunds)
      else (⟨sortBy opDateLe (c.operations ++ [Operation.new k fl d a s])⟩, Option.none) := by
  unfold Codexi.addOperation
  rw [balance_nofilter c]
  by_cases h1 : closeConflictB c d = true
  · rw [if_pos h1, if_pos h1]
  · rw [if_neg h1, if_neg h1]
    by_cases h2 : anchorConflictB c d = true
    · rw [if_pos h2, if_pos h2]
    · rw [if_neg h2, if_neg h2]
      by_cases h3 : fl = OperationFlow.debit
      · rw [if_pos h3]
        show (if round2 (creditRawL allOpsFilter c.operations - debitRawL allOpsFilter c.operations) < a
            then (c, some CodexiError.insufficientFunds)
            else (⟨sortBy opDateLe (c.operations ++ [Operation.new k fl d a s])⟩, Option.none)) = _
        by_cases h4 : round2 (creditRawL allOpsFilter c.operations - debitRawL allOpsFilter c.operations) < a
        · rw [if_pos h4, if_pos (And.intro h3 h4)]
        · rw [if_neg h4, if_neg (fun hc => h4 hc.2)]
      · rw [if_neg h3, if_neg (fun hc => h3 hc.1)]

/-- Claim C2: `add_operation` rejects with a date-conflict error exactly
when the new date is on or before the most recent `System(Close)` date,
or strictly before the most recent `System(Init)`/`System(Adjust)` date;
a date equal to the latest anchor date is not a date conflict (so it is
accepted when no close conflict and no funds shortage applies); and on
any rejection the ledger is unchanged. -/
theorem claimC2 (c : Codexi) (k : OperationKind) (fl : OperationFlow) (d : Date)
    (a : ℚ) (s : String) :
    (isDateConflictErr (Codexi.addOperation c k fl d a s).2 = true ↔ dateConflictCond c d)
    ∧ ((Codexi.addOperation c k fl d a s).2 ≠ Option.none →
        (Codexi.addOperation c k fl d a s).1 = c)
    ∧ (Codexi.latestAnchorDate c = some d → closeConflictB c d = false →
        isDateConflictErr (Codexi.addOperation c k fl d a s).2 = false) := by
  have hmain :
      (isDateConflictErr (Codexi.addOperation c k fl d a s).2 = true ↔ dateConflictCond c d)
      ∧ ((Codexi.addOperation c k fl d a s).2 ≠ Option.none →
          (Codexi.addOperation c k fl d a s).1 = c) := by
    rw [addOperation_eq]
    by_cases h1 : closeConflictB c d = true
    · rw [if_pos h1]
      refine ⟨?_, fun _ => rfl⟩
      simp only [isDateConflictErr]
      exact ⟨fun _ => Or.inl ((closeConflictB_iff c d).1 h1), fun _ => trivial⟩
    · rw [if_neg h1]
      by_cases h2 : anchorConflictB c d = true
      · rw [if_pos h2]
        refine ⟨?_, fun _ => rfl⟩
        simp only [isDateConflictErr]
        exact ⟨fun _ => Or.inr ((anchorConflictB_iff c d).1 h2), fun _ => trivial⟩
      · rw [if_neg h2]
        have hcond : ¬ dateConflictCond c d := by
          intro hc
          rcases hc with hcc | hca
          · exact h1 ((closeConflictB_iff c d).2 hcc)
          · exact h2 ((anchorConflictB_iff c d).2 hca)
        split_ifs with h34
        · exact ⟨by simp [isDateConflictErr, hcond], fun _ => rfl⟩
        · exact ⟨by simp [isDateConflictErr, hcond], fun hne => absurd rfl hne⟩
  refine ⟨hmain.1, hmain.2, ?_⟩
  intro hanchor hclose
  cases he : isDateConflictErr (Codexi.addOperation c k fl d a s).2 with
  | false => rfl
  | true =>
    exfalso
    rcases hmain.1.1 he with hcc | hca
    · rcases hcc with ⟨m, hm, _⟩
      have : closeConflictB c d = true := (closeConflictB_iff c d).2 ⟨m, hm, by assumption⟩
      rw [this] at hclose
      exact Bool.noConfusion hclose
    · rcases hca with ⟨m, hm, hlt⟩
      rw [hanchor] at hm
      cases hm
      unfold Date.ltb at hlt
      have hrefl : Date.leb d d = true := by
        unfold Date.leb
        split_ifs <;> simp_all <;> omega
      rw [hrefl] at hlt
      exact Bool.noConfusion hlt

/-- Witness for C2: a ledger whose only operation is a `Close` anchor
dated 2024-06-30 rejects an append dated 2024-06-15 as a date conflict. -/
theorem claimC2_witness :
    isDateConflictErr (Codexi.addOperation
        ⟨[⟨OperationKind.system SystemKind.close, OperationFlow.credit, ⟨2024, 6, 30⟩, 100, "z"⟩]⟩
        (OperationKind.regular RegularKind.transaction) OperationFlow.credit
        ⟨2024, 6, 15⟩ 5 "w").2 = true :=
  (claimC2 ⟨[⟨OperationKind.system SystemKind.close, OperationFlow.credit, ⟨2024, 6, 30⟩, 100, "z"⟩]⟩
      (OperationKind.regular RegularKind.transaction) OperationFlow.credit
      ⟨2024, 6, 15⟩ 5 "w").1.mpr
    (Or.inl ⟨⟨2024, 6, 30⟩, by decide, by decide⟩)

/-- One textual `append` call: the arguments of `add_operation` after
date parsing. -/
structure AppendCall where
  kind : OperationKind
  flow : OperationFlow
  date : Date
  amount : ℚ
  text : String
deriving DecidableEq, Repr

/-- Post-state of one `add_operation` call (the state component of the
embedding, error ignored: on rejection it is the unchanged input). -/
def Codexi.applyAppend (c : Codexi) (a : AppendCall) : Codexi :=
  (Codexi.addOperation c a.kind a.flow a.date a.amount a.text).1

/-- The sequence of ledger states after each call of a list of `append`
calls. -/
def Codexi.appendStates (c : Codexi) : List AppendCall → List Codexi
  | [] => []
  | a :: rest => Codexi.applyAppend c a :: Codexi.appendStates (Codexi.applyAppend c a) rest

/-- `add_operation` either rejects (state unchanged) or appends the new
operation and stably re-sorts the sequence by date. -/
theorem addOperation_post_cases (c : Codexi) (k : OperationKind) (fl : OperationFlow)
    (d : Date) (a : ℚ) (s : String) :
    (Codexi.addOperation c k fl d a s).1 = c ∨
    (Codexi.addOperation c k fl d a s).1
      = ⟨sortBy opDateLe (c.operations ++ [Operation.new k fl d a s])⟩ := by
  rw [addOperation_eq]
  split_ifs <;> simp

/-- One successful or failed `append` preserves date-sortedness (a
successful call fully re-sorts; a failed one leaves the state alone). -/
theorem sorted_applyAppend (c : Codexi) (a : AppendCall) (h : sortedByDate c) :
    sortedByDate (Codexi.applyAppend c a) := by
  unfold Codexi.applyAppend
  rcases addOperation_post_cases c a.kind a.flow a.date a.amount a.text with he | hs
  · rw [he]; exact h
  · rw [hs]
    unfold sortedByDate
    exact pairwise_sortBy (fun (x y : Operation) => Date.leb_total x.date y.date)
      (fun (x y z : Operation) => Date.leb_trans x.date y.date z.date) _

/-- Claim C6: starting from a ledger sorted by date ascending, after
every call of any sequence of `append` calls the operation sequence is
again sorted by date ascending. -/
theorem claimC6 (c : Codexi) (calls : List AppendCall) (h : sortedByDate c) :
    ∀ c2 ∈ Codexi.appendStates c calls, sortedByDate c2 := by
  induction calls generalizing c with
  | nil =>
    intro c2 hc2
    simp [Codexi.appendStates] at hc2
  | cons a rest ih =>
    intro c2 hc2
    simp only [Codexi.appendStates, List.mem_cons] at hc2
    rcases hc2 with rfl | hmem
    · exact sorted_applyAppend c a h
    · exact ih (Codexi.applyAppend c a) (sorted_applyAppend c a h) c2 hmem

/-- Witness for C6: the state after one append on the empty ledger is
sorted by date. -/
theorem claimC6_witness :
    sortedByDate (Codexi.applyAppend ⟨[]⟩
      ⟨OperationKind.regular RegularKind.transaction, OperationFlow.credit, ⟨2024, 1, 2⟩, 5, "x"⟩) :=
  claimC6 ⟨[]⟩
    [⟨OperationKind.regular RegularKind.transaction, OperationFlow.credit, ⟨2024, 1, 2⟩, 5, "x"⟩]
    (by simp [sortedByDate])
    _ (by simp [Codexi.appendStates])

/-- `close_period`'s loop on the ledger's own sequence, folded into the
filter/fold vocabulary of the claims. -/
theorem closeScan_ops (c : Codexi) (d : Date) :
    closeScan d c.operations 0 = (closingBalanceOf c d, archivedOf c d, retainedOf c d) := by
  rw [closeScan_eq]
  rfl

/-- Claim C1: whenever the archived partition (operations dated on or
before the close date) is non-empty, `close_period` writes exactly that
partition to the archive, and the live sequence becomes exactly the
retained operations plus one new `System(Close)` operation dated at the
close date — amount the absolute value of the closing balance (the
reset/accumulate fold `stepClose` over the archived partition), flow
derived from its sign — the whole sequence sorted by date ascending then
kind order. -/
theorem claimC1 (c : Codexi) (d : Date) (parts : List String)
    (h : archivedOf c d ≠ []) :
    Codexi.closePeriod c d parts
      = ⟨⟨sortBy opDateKindLe (retainedOf c d ++ [mkCloseOp d (closingBalanceOf c d) parts])⟩,
          some (archivedOf c d)⟩
    ∧ (mkCloseOp d (closingBalanceOf c d) parts).kind = OperationKind.system SystemKind.close
    ∧ (mkCloseOp d (closingBalanceOf c d) parts).flow
        = OperationFlow.fromSign (closingBalanceOf c d)
    ∧ (mkCloseOp d (closingBalanceOf c d) parts).date = d
    ∧ (mkCloseOp d (closingBalanceOf c d) parts).amount = abs (closingBalanceOf c d) := by
  have hne : (archivedOf c d).isEmpty = false := by
    cases hl : archivedOf c d with
    | nil => exact absurd hl h
    | cons x xs => rfl
  refine ⟨?_, rfl, rfl, rfl, rfl⟩
  unfold Codexi.closePeriod
  simp [closeScan_ops, hne]

/-- A sample ledger with an init anchor and transactions on both sides
of the close date 2024-01-31. -/
def sampleLedgerC1 : Codexi :=
  ⟨[⟨OperationKind.system SystemKind.init, OperationFlow.credit, ⟨2024, 1, 1⟩, 100, "INITIAL AMOUNT"⟩,
    ⟨OperationKind.regular RegularKind.transaction, OperationFlow.credit, ⟨2024, 1, 5⟩, 50, "atm"⟩,
    ⟨OperationKind.regular RegularKind.transaction, OperationFlow.debit, ⟨2024, 2, 10⟩, 30, "shop"⟩]⟩

/-- Witness for C1 at a concrete ledger and close date. -/
theorem claimC1_witness :
    archivedOf sampleLedgerC1 ⟨2024, 1, 31⟩ ≠ [] ∧
    Codexi.closePeriod sampleLedgerC1 ⟨2024, 1, 31⟩ ["january"]
      = ⟨⟨sortBy opDateKindLe (retainedOf sampleLedgerC1 ⟨2024, 1, 31⟩
            ++ [mkCloseOp ⟨2024, 1, 31⟩ (closingBalanceOf sampleLedgerC1 ⟨2024, 1, 31⟩) ["january"]])⟩,
          some (archivedOf sampleLedgerC1 ⟨2024, 1, 31⟩)⟩ :=
  ⟨by decide, (claimC1 sampleLedgerC1 ⟨2024, 1, 31⟩ ["january"] (by decide)).1⟩

/-- Claim C5 (amended): `close_period` is a no-op success exactly under
the source's guard — the archived partition is empty AND no retained
operation is an `Init` or `Close` anchor.  Under those hypotheses
nothing is archived, no anchor is created, and the sequence is
unchanged. -/
theorem claimC5amended (c : Codexi) (d : Date) (parts : List String)
    (h1 : ∀ op ∈ c.operations, Date.leb op.date d = false)
    (h2 : ∀ op ∈ c.operations, OperationKind.isInitOrClose op.kind = false) :
    Codexi.closePeriod c d parts = ⟨c, Option.none⟩ := by
  have harch : archivedOf c d = [] := by
    unfold archivedOf
    rw [List.filter_eq_nil]
    intro op hop
    simp [h1 op hop]
  have hret : retainedOf c d = c.operations := by
    unfold retainedOf
    apply List.filter_eq_self.2
    intro op hop
    simp [h1 op hop]
  have hall : c.operations.all (fun op => !OperationKind.isInitOrClose op.kind) = true := by
    rw [List.all_eq_true]
    intro op hop
    simp [h2 op hop]
  unfold Codexi.closePeriod
  simp [closeScan_ops, harch, hret, hall]

/-- Witness for C5 (amended): a single regular operation after the close
date is left untouched and nothing is archived. -/
theorem claimC5amended_witness :
    Codexi.closePeriod
        ⟨[⟨OperationKind.regular RegularKind.transaction, OperationFlow.credit, ⟨2024, 2, 1⟩, 5, "y"⟩]⟩
        ⟨2024, 1, 31⟩ ["end"]
      = ⟨⟨[⟨OperationKind.regular RegularKind.transaction, OperationFlow.credit, ⟨2024, 2, 1⟩, 5, "y"⟩]⟩,
          Option.none⟩ :=
  claimC5amended
    ⟨[⟨OperationKind.regular RegularKind.transaction, OperationFlow.credit, ⟨2024, 2, 1⟩, 5, "y"⟩]⟩
    ⟨2024, 1, 31⟩ ["end"] (by decide) (by decide)

/-- Removing an index keeps membership in the original list. -/
theorem mem_of_mem_eraseIdx {α : Type} {l : List α} {i : Nat} {a : α}
    (h : a ∈ l.eraseIdx i) : a ∈ l := by
  induction l generalizing i with
  | nil => simpa [List.eraseIdx] using h
  | cons x xs ih =>
    cases i with
    | zero =>
      simp only [List.eraseIdx] at h
      exact List.mem_cons_of_mem _ h
    | succ n =>
      simp only [List.eraseIdx, List.mem_cons] at h
      rcases h with rfl | h
      · exact List.mem_cons_self _ _
      · exact List.mem_cons_of_mem _ (ih h)

/-- `delete_operation` either rejects (state unchanged) or removes the
element at the index. -/
theorem deleteOperation_post_cases (c : Codexi) (i : Nat) :
    (Codexi.deleteOperation c i).1 = c ∨
    (Codexi.deleteOperation c i).1 = ⟨c.operations.eraseIdx i⟩ := by
  unfold Codexi.deleteOperation
  by_cases h : c.operations.length ≤ i
  · rw [dif_pos h]
    exact Or.inl rfl
  · rw [dif_neg h]
    by_cases h2 : (c.operations.get ⟨i, Nat.lt_of_not_le h⟩).kind = OperationKind.system SystemKind.init
        ∨ (c.operations.get ⟨i, Nat.lt_of_not_le h⟩).kind = OperationKind.system SystemKind.close
        ∨ (c.operations.get ⟨i, Nat.lt_of_not_le h⟩).kind = OperationKind.system SystemKind.adjust
    · rw [if_pos h2]
      exact Or.inl rfl
    · rw [if_neg h2]
      exact Or.inr rfl

/-- A successful or failed `add_operation` preserves amount
non-negativity when the new amount is non-negative. -/
theorem nonneg_addOperation (c : Codexi) (k : OperationKind) (fl : OperationFlow)
    (d : Date) (a : ℚ) (s : String) (hc : allAmountsNonneg c) (ha : 0 ≤ a) :
    allAmountsNonneg (Codexi.addOperation c k fl d a s).1 := by
  rcases addOperation_post_cases c k fl d a s with he | hs
  · rw [he]; exact hc
  · rw [hs]
    intro op hop
    rw [mem_sortBy] at hop
    rcases List.mem_append.1 hop with h | h
    · exact hc op h
    · rw [List.mem_singleton] at h
      subst h
      exact ha

/-- `close_period` either keeps exactly the retained operations or keeps
them plus the new close anchor, sorted. -/
theorem closePeriod_post_cases (c : Codexi) (d : Date) (parts : List String) :
    (Codexi.closePeriod c d parts).post = ⟨retainedOf c d⟩ ∨
    (Codexi.closePeriod c d parts).post
      = ⟨sortBy opDateKindLe (retainedOf c d ++ [mkCloseOp d (closingBalanceOf c d) parts])⟩ := by
  unfold Codexi.closePeriod
  simp only [closeScan_ops]
  split_ifs <;> simp

/-- The rounded unfiltered total balance used by `adjust_balance`. -/
def unfTotal (c : Codexi) : ℚ :=
  round2 (creditRawL allOpsFilter c.operations - debitRawL allOpsFilter c.operations)

/-- Closed-form characterisation of `adjust_balance`. -/
theorem adjustBalance_eq (c : Codexi) (p : ℚ) (d : Date) :
    Codexi.adjustBalance c p d =
      if p < 0 then (c, Option.none)
      else if abs (p - unfTotal c) < 1/1000 then (c, Option.none)
      else Codexi.addOperation c (OperationKind.system SystemKind.adjust)
        (OperationFlow.fromSign (p - unfTotal c)) d (abs (p - unfTotal c))
        (mkAdjustDescription (abs (p - unfTotal c)) p) := by
  unfold Codexi.adjustBalance
  by_cases h0 : p < 0
  · rw [if_pos h0, if_pos h0]
  · rw [if_neg h0, if_neg h0]
    rw [balance_nofilter c]
    rfl

/-- One mutation command of the ledger engine: the arguments of one call
of `add_operation`, `delete_operation`, `initialize`, `adjust_balance`
or `close_period`. -/
inductive LedgerCmd where
  | append (k : OperationKind) (fl : OperationFlow) (d : Date) (a : ℚ) (s : String)
  | remove (i : Nat)
  | initialAmount (a : ℚ) (d : Date)
  | adjust (p : ℚ) (d : Date)
  | close (d : Date) (parts : List String)

/-- Post-state of one mutation command (rejections leave the state
unchanged in the embedding, as in the source's early returns). -/
def LedgerCmd.apply (c : Codexi) : LedgerCmd → Codexi
  | LedgerCmd.append k fl d a s => (Codexi.addOperation c k fl d a s).1
  | LedgerCmd.remove i => (Codexi.deleteOperation c i).1
  | LedgerCmd.initialAmount a d => (Codexi.initLedger c a d).1
  | LedgerCmd.adjust p d => (Codexi.adjustBalance c p d).1
  | LedgerCmd.close d parts => (Codexi.closePeriod c d parts).post

/-- The caller passed a non-negative amount to `append`; the other
commands derive their amounts internally. -/
def LedgerCmd.appendNonneg : LedgerCmd → Prop
  | LedgerCmd.append _ _ _ a _ => 0 ≤ a
  | _ => True

/-- Every single mutation command preserves amount non-negativity,
provided an `append` command carries a non-negative amount. -/
theorem nonneg_apply (c : Codexi) (cmd : LedgerCmd)
    (hc : allAmountsNonneg c) (hcmd : cmd.appendNonneg) :
    allAmountsNonneg (LedgerCmd.apply c cmd) := by
  cases cmd with
  | append k fl d a s => exact nonneg_addOperation c k fl d a s hc hcmd
  | remove i =>
    show allAmountsNonneg (Codexi.deleteOperation c i).1
    rcases deleteOperation_post_cases c i with he | hs
    · rw [he]; exact hc
    · rw [hs]
      intro op hop
      exact hc op (mem_of_mem_eraseIdx hop)
  | initialAmount a d =>
    show allAmountsNonneg (Codexi.initLedger c a d).1
    unfold Codexi.initLedger
    split_ifs with hE
    · exact hc
    · exact nonneg_addOperation c _ _ _ _ _ hc (abs_nonneg a)
  | adjust p d =>
    show allAmountsNonneg (Codexi.adjustBalance c p d).1
    rw [adjustBalance_eq]
    split_ifs with h0 hsm
    · exact hc
    · exact hc
    · exact nonneg_addOperation c _ _ _ _ _ hc (abs_nonneg _)
  | close d parts =>
    show allAmountsNonneg (Codexi.closePeriod c d parts).post
    rcases closePeriod_post_cases c d parts with hp | hp
    · rw [hp]
      intro op hop
      exact hc op (List.mem_of_mem_filter hop)
    · rw [hp]
      intro op hop
      rw [mem_sortBy] at hop
      rcases List.mem_append.1 hop with h | h
      · exact hc op (List.mem_of_mem_filter h)
      · rw [List.mem_singleton] at h
        subst h
        exact abs_nonneg _

/-- Claim C8 (amended): after any sequence of mutation commands starting
from a ledger whose amounts are all non-negative, every stored amount is
non-negative — provided every `append` command in the sequence carries a
non-negative amount (the source validates no amount sign on `append`;
`initialize`, `adjust_balance` and `close_period` take absolute values
internally and `delete` only removes). -/
theorem claimC8amended (cmds : List LedgerCmd) (c : Codexi)
    (hc : allAmountsNonneg c) (hcmds : ∀ cmd ∈ cmds, cmd.appendNonneg) :
    allAmountsNonneg (cmds.foldl LedgerCmd.apply c) := by
  induction cmds generalizing c with
  | nil => simpa using hc
  | cons cmd rest ih =>
    simp only [List.foldl_cons]
    exact ih (LedgerCmd.apply c cmd)
      (nonneg_apply c cmd hc (hcmds cmd (List.mem_cons_self cmd rest)))
      (fun x hx => hcmds x (List.mem_cons_of_mem cmd hx))

/-- Witness for C8 (amended): one non-negative append on the empty
ledger leaves all stored amounts non-negative. -/
theorem claimC8amended_witness :
    allAmountsNonneg
      ([LedgerCmd.append (OperationKind.regular RegularKind.transaction)
          OperationFlow.credit ⟨2024, 1, 2⟩ 5 "x"].foldl LedgerCmd.apply ⟨[]⟩) :=
  claimC8amended
    [LedgerCmd.append (OperationKind.regular RegularKind.transaction)
      OperationFlow.credit ⟨2024, 1, 2⟩ 5 "x"] ⟨[]⟩
    (by intro op hop; simp at hop)
    (by
      intro cmd hcmd
      rw [List.mem_singleton] at hcmd
      subst hcmd
      show (0 : ℚ) ≤ 5
      norm_num)

/-- Claim C9 (amended): every successful `balance` call that reaches
the accumulation loop returns the 2-decimal roundings (ties away from
zero) of the unrounded credit and debit accumulations, and a total that
is the rounding of unrounded credit minus unrounded debit — so the
identity credit minus debit equals total holds before rounding, while
the rounded returned fields may differ (see the counterexample). -/
theorem claimC9amended (c : Codexi) (f t dy : Option (Option Date))
    (mo : Option (Option (Int × Nat))) (yr : Option (Option Int)) (r : BalanceResult)
    (hdy : dy ≠ some Option.none) (hyr : yr ≠ some Option.none)
    (hok : Codexi.balance c f t dy mo yr = Except.ok r) :
    r.credit = round2 (creditRawL (matchesFilters f.join t.join dy.join mo.join yr.join) c.operations)
    ∧ r.debit = round2 (debitRawL (matchesFilters f.join t.join dy.join mo.join yr.join) c.operations)
    ∧ r.total = round2 (creditRawL (matchesFilters f.join t.join dy.join mo.join yr.join) c.operations
        - debitRawL (matchesFilters f.join t.join dy.join mo.join yr.join) c.operations) := by
  by_cases hf : f = some Option.none
  · unfold Codexi.balance at hok
    rw [if_pos hf] at hok
    exact absurd hok (by simp)
  · by_cases ht : t = some Option.none
    · unfold Codexi.balance at hok
      rw [if_neg hf, if_pos ht] at hok
      exact absurd hok (by simp)
    · rw [balance_ok c f t dy mo yr hf ht hdy hyr] at hok
      have hr := Except.ok.inj hok
      rw [← hr]
      exact ⟨rfl, rfl, rfl⟩

set_option maxHeartbeats 1000000 in
/-- Witness for C9 (amended) on a one-operation ledger with no filters
(the filter arguments are spelled in the resolved `Option.join` form the
theorem's conclusion produces). -/
theorem claimC9amended_witness :
    ((⟨50, 0, 50⟩ : BalanceResult).credit
        = round2 (creditRawL (matchesFilters (Option.none : Option (Option Date)).join
            (Option.none : Option (Option Date)).join (Option.none : Option (Option Date)).join
            (Option.none : Option (Option (Int × Nat))).join (Option.none : Option (Option Int)).join)
            (Codexi.mk [⟨OperationKind.regular RegularKind.transaction, OperationFlow.credit, ⟨2024, 1, 2⟩, 50, "x"⟩]).operations))
    ∧ ((⟨50, 0, 50⟩ : BalanceResult).debit
        = round2 (debitRawL (matchesFilters (Option.none : Option (Option Date)).join
            (Option.none : Option (Option Date)).join (Option.none : Option (Option Date)).join
            (Option.none : Option (Option (Int × Nat))).join (Option.none : Option (Option Int)).join)
            (Codexi.mk [⟨OperationKind.regular RegularKind.transaction, OperationFlow.credit, ⟨2024, 1, 2⟩, 50, "x"⟩]).operations))
    ∧ ((⟨50, 0, 50⟩ : BalanceResult).total
        = round2 (creditRawL (matchesFilters (Option.none : Option (Option Date)).join
            (Option.none : Option (Option Date)).join (Option.none : Option (Option Date)).join
            (Option.none : Option (Option (Int × Nat))).join (Option.none : Option (Option Int)).join)
            (Codexi.mk [⟨OperationKind.regular RegularKind.transaction, OperationFlow.credit, ⟨2024, 1, 2⟩, 50, "x"⟩]).operations
          - debitRawL (matchesFilters (Option.none : Option (Option Date)).join
            (Option.none : Option (Option Date)).join (Option.none : Option (Option Date)).join
            (Option.none : Option (Option (Int × Nat))).join (Option.none : Option (Option Int)).join)
            (Codexi.mk [⟨OperationKind.regular RegularKind.transaction, OperationFlow.credit, ⟨2024, 1, 2⟩, 50, "x"⟩]).operations)) := by
  have hok : Codexi.balance
      ⟨[⟨OperationKind.regular RegularKind.transaction, OperationFlow.credit, ⟨2024, 1, 2⟩, 50, "x"⟩]⟩
      Option.none Option.none Option.none Option.none Option.none
      = Except.ok ⟨50, 0, 50⟩ := by
    rw [balance_ok _ _ _ _ _ _ (by simp) (by simp) (by simp) (by simp)]
    simp only [creditRawL, debitRawL, matchesFilters, Option.join, reduceCtorEq,
      decide_eq_true_eq, Bool.true_and, Bool.and_true, if_true, if_false,
      add_zero, zero_add]
    norm_num [round2, rustRound]
  exact claimC9amended (Codexi.mk [⟨OperationKind.regular RegularKind.transaction, OperationFlow.credit, ⟨2024, 1, 2⟩, 50, "x"⟩])
    Option.none Option.none Option.none Option.none Option.none ⟨50, 0, 50⟩ (by simp) (by simp) hok
